import Mathlib

/-!
Shallow embedding of `src/core/src/stores/stakes_store.rs` (the stake
registry store of lite-rpc) and verification of its specification.

Modelling conventions:
* `Pubkey` (solana_sdk) is an opaque, equality-comparable identifier; it is
  modelled as `Nat`.  `Pubkey::from_str` lives in an external crate, so the
  whole development is parametrised by an arbitrary parse function
  `parse : String → Option Pubkey`; parse failure (`Err`) is `none`.
* `u64` stake amounts are modelled as `Nat`.  (Stake amounts are lamport
  balances; the summed quantities fit in `u64` in the code's domain, and
  `u64` overflow would panic rather than wrap in a debug build, so wrapping
  arithmetic is not modelled.)
* `HashMap<Pubkey, u64>` is modelled as an association list with unique
  keys; `collect()` over an iterator of pairs keeps, for every key, the
  value of its last occurrence, which is exactly what
  `hashMapOfList` computes.  All observations the code makes of the map
  (`get`, `values().sum/min/max`, iteration as a set of entries) are
  insensitive to the bucket order of a real hash map, so the association
  list order is irrelevant to every theorem below.
* `Vec::sort_by_key(|(_pk, stake)| Reverse(*stake))` is a stable sort,
  non-increasing in the stake component.  A stable sort's output is
  uniquely determined by its input, so it is modelled by the stable
  insertion sort `sortByStakeDesc` (an element is inserted after all
  earlier elements with a strictly larger stake and before the first
  element whose stake is ≤ its own, i.e. before later-arriving equals).
* The `tokio::sync::RwLock` around the snapshot serialises updates with
  reads; sequential state passing models the store, and `update_stakes`
  returns the new store.  `log::error!` output is modelled by returning
  the list of emitted log lines together with their level.
-/

/-- Models `solana_sdk::pubkey::Pubkey`: an opaque fixed-size identifier
with decidable equality, represented as `Nat`. -/
abbrev Pubkey := Nat

/-- Models the fields of `solana_rpc_client_api::response::RpcVoteAccountInfo`
that `stakes_store.rs` reads: `node_pubkey: String` and
`activated_stake: u64`. -/
structure RpcVoteAccountInfo where
  node_pubkey : String
  activated_stake : Nat
deriving Repr, DecidableEq

/-- Models `solana_rpc_client_api::response::RpcVoteAccountStatus`: the two
record collections of one report, current participants then delinquent
participants. -/
structure RpcVoteAccountStatus where
  current : List RpcVoteAccountInfo
  delinquent : List RpcVoteAccountInfo
deriving Repr, DecidableEq

/-- Log severity of a diagnostic emitted through the `log` crate
(`stakes_store.rs` uses `log::error!`; the spec speaks of warning level). -/
inductive LogLevel where
  | error : LogLevel
  | warn : LogLevel
deriving Repr, DecidableEq

/-- Models
`vote_accounts.current.iter().chain(vote_accounts.delinquent.iter())
  .map(|va| Ok((Pubkey::from_str(&va.node_pubkey)?, va.activated_stake)))
  .collect::<Result<Vec<_>, ParsePubkeyError>>()` applied to an already
concatenated list: parses every identity string, short-circuiting to
`none` on the first parse failure (lines 76–81). -/
def parseVoteAccounts (parse : String → Option Pubkey) :
    List RpcVoteAccountInfo → Option (List (Pubkey × Nat))
  | [] => some []
  | va :: rest =>
    match parse va.node_pubkey with
    | none => none
    | some pk => (parseVoteAccounts parse rest).map (fun l => (pk, va.activated_stake) :: l)

/-- Stable insertion of one record into a list that is (to be) sorted
non-increasing by stake: the record passes every earlier record carrying a
strictly larger stake and stops in front of the first record whose stake is
not larger. -/
def insertDesc (x : Pubkey × Nat) : List (Pubkey × Nat) → List (Pubkey × Nat)
  | [] => [x]
  | y :: ys => if x.2 < y.2 then y :: insertDesc x ys else x :: y :: ys

/-- Models `stakes_desc.sort_by_key(|(_pk, stake)| std::cmp::Reverse(*stake))`
(line 87): the stable sort of the records, non-increasing by stake.  A
stable sort's output is unique, so stable insertion sort is extensionally
the same function as the stable merge sort Rust uses. -/
def sortByStakeDesc : List (Pubkey × Nat) → List (Pubkey × Nat)
  | [] => []
  | x :: xs => insertDesc x (sortByStakeDesc xs)

/-- Models `stakes_desc.iter().copied().collect::<HashMap<Pubkey, u64>>()`
(line 89) as an association list with unique keys: an entry is kept exactly
when its key does not occur again later, so every key maps to the value of
its last occurrence — `HashMap` insertion overwrites. -/
def hashMapOfList : List (Pubkey × Nat) → List (Pubkey × Nat)
  | [] => []
  | x :: xs =>
    if xs.any (fun y => y.1 == x.1) then hashMapOfList xs
    else x :: hashMapOfList xs

/-- Models `HashMap::get` on the association-list representation. -/
def mapLookup (m : List (Pubkey × Nat)) (k : Pubkey) : Option Nat :=
  (m.find? (fun q => q.1 == k)).map (fun q => q.2)

/-- Models `HashMap::values()` on the association-list representation. -/
def mapValues (m : List (Pubkey × Nat)) : List Nat :=
  m.map (fun q => q.2)

/-- Models `StakeSummary` (lines 10–15). -/
structure StakeSummary where
  total_stakes : Nat
  min_stakes : Nat
  max_stakes : Nat
deriving Repr, DecidableEq

instance : Inhabited StakeSummary := ⟨⟨0, 0, 0⟩⟩

/-- Models the summary computation of `update_stakes` (lines 91–95):
`total_stakes: id_to_stake.values().sum()`,
`min_stakes: id_to_stake.values().min().copied().unwrap_or(0)`,
`max_stakes: id_to_stake.values().max().copied().unwrap_or(0)`. -/
def mkSummary (id_to_stake : List (Pubkey × Nat)) : StakeSummary :=
  { total_stakes := (mapValues id_to_stake).sum
    min_stakes := (mapValues id_to_stake).min?.getD 0
    max_stakes := (mapValues id_to_stake).max?.getD 0 }

/-- Models `StakeData` (lines 17–22); `Default` gives the empty map, the
empty vector and the all-zero summary. -/
structure StakeData where
  identity_to_stake : List (Pubkey × Nat)
  stakes_desc : List (Pubkey × Nat)
  summary : StakeSummary
deriving Repr, DecidableEq

instance : Inhabited StakeData := ⟨⟨[], [], ⟨0, 0, 0⟩⟩⟩

/-- Models `StakesStore` (lines 24–28).  The `Arc<RwLock<…>>` cell is
modelled by sequential state passing: reads are pure functions of the
store, the update returns the new store. -/
structure StakesStore where
  own_identity : Pubkey
  data : StakeData
deriving Repr, DecidableEq

/-- Models `StakesStore::new` (lines 31–36): stores the owner identity and
the default (empty) snapshot. -/
def StakesStore.new (identity : Pubkey) : StakesStore :=
  { own_identity := identity, data := default }

/-- Models `get_summary` (lines 38–40). -/
def StakesStore.get_summary (s : StakesStore) : StakeSummary :=
  s.data.summary

/-- Models `solana_streamer::nonblocking::quic::ConnectionPeerType` as used
here: the classification tag of a peer.  The default classification is
`Unstaked`. -/
inductive ConnectionPeerType where
  | Unstaked : ConnectionPeerType
  | Staked : ConnectionPeerType
deriving Repr, DecidableEq

instance : Inhabited ConnectionPeerType := ⟨ConnectionPeerType.Unstaked⟩

/-- Models `crate::structures::identity_stakes::IdentityStakesData`; its
fields are the ones constructed at lines 48–54.  Its `Default`
implementation is not under `src/`.  Modelled from the spec: the
default/absent result is zero-valued with the default "unstaked"
classification (spec §4.1: stake = 0, summary fields = 0, classification =
default/"unstaked"). -/
structure IdentityStakesData where
  peer_type : ConnectionPeerType
  stakes : Nat
  total_stakes : Nat
  min_stakes : Nat
  max_stakes : Nat
deriving Repr, DecidableEq

instance : Inhabited IdentityStakesData :=
  ⟨⟨ConnectionPeerType.Unstaked, 0, 0, 0, 0⟩⟩

/-- Models `get_identity_stakes` (lines 43–56): looks the owner identity up
in the mapping; when present builds the staked record from the stake and
the current summary, otherwise `unwrap_or_default()`. -/
def StakesStore.get_identity_stakes (s : StakesStore) : IdentityStakesData :=
  match mapLookup s.data.identity_to_stake s.own_identity with
  | some stake =>
    { peer_type := ConnectionPeerType.Staked
      stakes := stake
      total_stakes := s.data.summary.total_stakes
      min_stakes := s.data.summary.min_stakes
      max_stakes := s.data.summary.max_stakes }
  | none => default

/-- Models `get_node_stake` (lines 58–65): point lookup in the mapping. -/
def StakesStore.get_node_stake (s : StakesStore) (identity : Pubkey) : Option Nat :=
  mapLookup s.data.identity_to_stake identity

/-- Models `get_stake_per_node` (lines 67–69): a copy of the mapping. -/
def StakesStore.get_stake_per_node (s : StakesStore) : List (Pubkey × Nat) :=
  s.data.identity_to_stake

/-- Models `get_all_stakes_desc` (lines 71–73): a copy of the ranked
sequence. -/
def StakesStore.get_all_stakes_desc (s : StakesStore) : List (Pubkey × Nat) :=
  s.data.stakes_desc

/-- Models `update_stakes` (lines 75–101) together with its log output:
parse the concatenation current-then-delinquent; on any parse failure emit
one `error!`-level line and return with the store unchanged; otherwise
sort the records non-increasing by stake with a stable sort, build the
identity→stake map from the sorted sequence, compute the summary from the
map's values, and install the three fields as one new snapshot. -/
def StakesStore.update_stakesWithLog (parse : String → Option Pubkey)
    (s : StakesStore) (vote_accounts : RpcVoteAccountStatus) :
    StakesStore × List (LogLevel × String) :=
  match parseVoteAccounts parse (vote_accounts.current ++ vote_accounts.delinquent) with
  | none => (s, [(LogLevel.error, "rpc vote account result contained bad pubkey")])
  | some parsed =>
    let stakes_desc := sortByStakeDesc parsed
    let id_to_stake := hashMapOfList stakes_desc
    let summary := mkSummary id_to_stake
    ({ s with
        data :=
          { identity_to_stake := id_to_stake
            stakes_desc := stakes_desc
            summary := summary } }, [])

/-- The store after `update_stakes` (the caller-visible effect: the update
has no return value, only the state change). -/
def StakesStore.update_stakes (parse : String → Option Pubkey)
    (s : StakesStore) (vote_accounts : RpcVoteAccountStatus) : StakesStore :=
  (s.update_stakesWithLog parse vote_accounts).1

/-- The store reached from `new` after a sequence of `update_stakes` calls:
the states observable through the read API. -/
def StakesStore.applyUpdates (parse : String → Option Pubkey)
    (s : StakesStore) (reports : List RpcVoteAccountStatus) : StakesStore :=
  reports.foldl (fun st r => st.update_stakes parse r) s

/-- The summary invariant of one snapshot: the total is the sum of the
mapping's values, every value lies between the minimum and the maximum, and
an empty mapping has minimum and maximum `0`. -/
def SummaryInv (d : StakeData) : Prop :=
  d.summary.total_stakes = (mapValues d.identity_to_stake).sum ∧
  (∀ v ∈ mapValues d.identity_to_stake,
      d.summary.min_stakes ≤ v ∧ v ≤ d.summary.max_stakes) ∧
  (d.identity_to_stake = [] → d.summary.min_stakes = 0 ∧ d.summary.max_stakes = 0)

/-- A concrete parse function used to instantiate the abstract
`Pubkey::from_str` parameter on closed test inputs: it accepts the three
identity strings A, B, C and rejects everything else. -/
def testParse (s : String) : Option Pubkey :=
  if s = "A" then some 1
  else if s = "B" then some 2
  else if s = "C" then some 3
  else none

/-! ### Helper lemmas about the stable sort -/

/-- Membership in an insertion. -/
lemma mem_insertDesc {a x : Pubkey × Nat} {l : List (Pubkey × Nat)} :
    a ∈ insertDesc x l ↔ a = x ∨ a ∈ l := by
  induction l with
  | nil => simp [insertDesc]
  | cons y ys ih =>
    by_cases h : x.2 < y.2
    · simp only [insertDesc, if_pos h, List.mem_cons, ih]
      tauto
    · simp only [insertDesc, if_neg h, List.mem_cons]

/-- Insertion produces a permutation of consing. -/
lemma perm_insertDesc (x : Pubkey × Nat) (l : List (Pubkey × Nat)) :
    (insertDesc x l).Perm (x :: l) := by
  induction l with
  | nil => simp [insertDesc]
  | cons y ys ih =>
    by_cases h : x.2 < y.2
    · simp only [insertDesc, if_pos h]
      exact (ih.cons y).trans (List.Perm.swap x y ys)
    · simp [insertDesc, if_neg h]

/-- Insertion preserves the non-increasing-by-stake order. -/
lemma sorted_insertDesc (x : Pubkey × Nat) {l : List (Pubkey × Nat)}
    (h : l.Pairwise (fun a b => b.2 ≤ a.2)) :
    (insertDesc x l).Pairwise (fun a b => b.2 ≤ a.2) := by
  induction l with
  | nil => simp [insertDesc]
  | cons y ys ih =>
    rw [List.pairwise_cons] at h
    by_cases hx : x.2 < y.2
    · simp only [insertDesc, if_pos hx]
      rw [List.pairwise_cons]
      refine ⟨?_, ih h.2⟩
      intro a ha
      rcases mem_insertDesc.mp ha with rfl | ha
      · exact Nat.le_of_lt hx
      · exact h.1 a ha
    · simp only [insertDesc, if_neg hx]
      rw [List.pairwise_cons]
      refine ⟨?_, List.pairwise_cons.mpr h⟩
      intro a ha
      rcases List.mem_cons.mp ha with rfl | ha
      · exact Nat.le_of_not_lt hx
      · exact Nat.le_trans (h.1 a ha) (Nat.le_of_not_lt hx)

/-- The sorted sequence is a permutation of its input. -/
lemma perm_sortByStakeDesc (l : List (Pubkey × Nat)) :
    (sortByStakeDesc l).Perm l := by
  induction l with
  | nil => simp [sortByStakeDesc]
  | cons x xs ih => exact (perm_insertDesc x (sortByStakeDesc xs)).trans (ih.cons x)

/-- The sorted sequence is non-increasing in the stake component. -/
lemma sorted_sortByStakeDesc (l : List (Pubkey × Nat)) :
    (sortByStakeDesc l).Pairwise (fun a b => b.2 ≤ a.2) := by
  induction l with
  | nil => simp [sortByStakeDesc]
  | cons x xs ih => exact sorted_insertDesc x ih

/-- Restricted to the records of one fixed stake value, insertion prepends
the new record: it passes only records with strictly larger stakes. -/
lemma filter_insertDesc (x : Pubkey × Nat) (l : List (Pubkey × Nat)) (v : Nat) :
    (insertDesc x l).filter (fun q => q.2 == v) =
      if x.2 == v then x :: l.filter (fun q => q.2 == v)
      else l.filter (fun q => q.2 == v) := by
  induction l with
  | nil => simp [insertDesc, List.filter_cons]
  | cons y ys ih =>
    by_cases hx : x.2 < y.2
    · simp only [insertDesc, if_pos hx, List.filter_cons]
      by_cases hxv : x.2 = v
      · have hyv : ¬(y.2 == v) = true := by
          simp only [beq_iff_eq]
          omega
        simp only [if_neg hyv, ih, hxv]
      · have hxv' : ¬(x.2 == v) = true := by simpa using hxv
        simp only [ih, if_neg hxv']
    · simp only [insertDesc, if_neg hx, List.filter_cons]

/-- Stability of the sort: for every stake value `v`, the records carrying
stake `v` appear in the output in exactly their input order. -/
lemma filter_sortByStakeDesc (l : List (Pubkey × Nat)) (v : Nat) :
    (sortByStakeDesc l).filter (fun q => q.2 == v) = l.filter (fun q => q.2 == v) := by
  induction l with
  | nil => simp [sortByStakeDesc]
  | cons x xs ih =>
    simp only [sortByStakeDesc, filter_insertDesc, List.filter_cons, ih]

/-! ### Helper lemmas about the association-list model of the hash map -/

/-- The deduplicated map is a sublist of the record sequence it is built
from. -/
lemma hashMapOfList_sublist (l : List (Pubkey × Nat)) :
    (hashMapOfList l).Sublist l := by
  induction l with
  | nil => simp [hashMapOfList]
  | cons x xs ih =>
    by_cases h : xs.any (fun y => y.1 == x.1)
    · simpa [hashMapOfList, h] using ih.cons x
    · simpa [hashMapOfList, h] using ih.cons₂ x

/-- The deduplicated map has pairwise distinct keys. -/
lemma nodupKeys_hashMapOfList (l : List (Pubkey × Nat)) :
    (hashMapOfList l).Pairwise (fun a b => a.1 ≠ b.1) := by
  induction l with
  | nil => simp [hashMapOfList]
  | cons x xs ih =>
    by_cases h : xs.any (fun y => y.1 == x.1)
    · simpa [hashMapOfList, h] using ih
    · simp only [hashMapOfList, if_neg h, List.pairwise_cons]
      refine ⟨?_, ih⟩
      intro b hb
      have hb' : b ∈ xs := (hashMapOfList_sublist xs).mem hb
      have hne := List.any_eq_false.mp (Bool.eq_false_iff.mpr h) b hb'
      simp only [beq_iff_eq] at hne
      exact fun hEq => hne hEq.symm

/-- `find?` returns the head of the filtered list. -/
lemma find?_eq_head?_filter (p : Pubkey × Nat → Bool) (l : List (Pubkey × Nat)) :
    l.find? p = (l.filter p).head? := by
  induction l with
  | nil => rfl
  | cons x xs ih =>
    by_cases h : p x
    · rw [List.find?_cons_of_pos _ h, List.filter_cons_of_pos h, List.head?_cons]
    · rw [List.find?_cons_of_neg _ h, List.filter_cons_of_neg h, ih]

/-- Looking a key up in the deduplicated map finds the value of the key's
last occurrence in the record sequence the map was built from. -/
lemma mapLookup_hashMapOfList (l : List (Pubkey × Nat)) (k : Pubkey) :
    mapLookup (hashMapOfList l) k =
      (l.reverse.find? (fun q => q.1 == k)).map (fun q => q.2) := by
  induction l with
  | nil => rfl
  | cons x xs ih =>
    rw [List.reverse_cons, List.find?_append]
    by_cases h : xs.any (fun y => y.1 == x.1)
    · simp only [hashMapOfList, if_pos h]
      rw [ih]
      rcases hfind : xs.reverse.find? (fun q => q.1 == k) with _ | q
      · rw [hfind, Option.none_or]
        have hxk : (x.1 == k) = false := by
          rw [beq_eq_false_iff_ne]
          rcases List.any_eq_true.mp h with ⟨y, hy, hyk⟩
          have hnone := List.find?_eq_none.mp hfind y (by simpa using hy)
          simp only [beq_iff_eq] at hyk hnone
          intro hEq
          exact hnone (by rw [hyk, hEq])
        simp [List.find?_cons, hxk]
      · rw [hfind]
        rfl
    · simp only [hashMapOfList, if_neg h]
      by_cases hxk : x.1 = k
      · have hb : (x.1 == k) = true := by simpa using hxk
        have hnone : xs.reverse.find? (fun q => q.1 == k) = none := by
          rw [List.find?_eq_none]
          intro q hq
          have hq' : q ∈ xs := by simpa using hq
          have hne := List.any_eq_false.mp (Bool.eq_false_iff.mpr h) q hq'
          simp only [beq_iff_eq] at hne ⊢
          intro hEq
          exact hne (by rw [hEq, hxk])
        rw [hnone, Option.none_or]
        simp [mapLookup, List.find?_cons, hb]
      · have hb : (x.1 == k) = false := by
          rw [beq_eq_false_iff_ne]
          exact hxk
        have hx1 : List.find? (fun q => q.1 == k) [x] = none := by
          simp [List.find?_cons, hb]
        rw [hx1, Option.or_none, ← ih]
        simp [mapLookup, List.find?_cons, hb]

/-- In a map with pairwise distinct keys, a successful lookup is the same
thing as membership of the entry. -/
lemma mapLookup_eq_some_iff_mem {m : List (Pubkey × Nat)}
    (hm : m.Pairwise (fun a b => a.1 ≠ b.1)) {k : Pubkey} {v : Nat} :
    mapLookup m k = some v ↔ (k, v) ∈ m := by
  induction m with
  | nil => simp [mapLookup]
  | cons x xs ih =>
    rw [List.pairwise_cons] at hm
    by_cases hxk : x.1 = k
    · have hb : (x.1 == k) = true := by simpa using hxk
      have hfind : mapLookup (x :: xs) k = some x.2 := by
        simp [mapLookup, List.find?_cons, hb]
      rw [hfind, List.mem_cons]
      constructor
      · intro hv
        have hv2 : x.2 = v := Option.some.inj hv
        exact Or.inl (by rw [← hxk, ← hv2])
      · rintro (heq2 | hmem2)
        · rw [← heq2]
        · exact absurd hxk (hm.1 (k, v) hmem2)
    · have hb : (x.1 == k) = false := by
        rw [beq_eq_false_iff_ne]
        exact hxk
      have hfind : mapLookup (x :: xs) k = mapLookup xs k := by
        simp [mapLookup, List.find?_cons, hb]
      rw [hfind, ih hm.2, List.mem_cons]
      constructor
      · exact Or.inr
      · rintro (heq2 | hmem2)
        · exact absurd (congrArg Prod.fst heq2).symm hxk
        · exact hmem2

/-- A lookup of a key absent from every entry fails. -/
lemma mapLookup_eq_none_of_not_mem {m : List (Pubkey × Nat)} {k : Pubkey}
    (h : ∀ q ∈ m, q.1 ≠ k) : mapLookup m k = none := by
  have hfind : m.find? (fun q => q.1 == k) = none := by
    rw [List.find?_eq_none]
    intro q hq
    simpa using h q hq
  simp [mapLookup, hfind]

/-- Deduplication can only shrink the total of the values. -/
lemma sum_hashMapOfList_le (l : List (Pubkey × Nat)) :
    (mapValues (hashMapOfList l)).sum ≤ (mapValues l).sum := by
  refine List.Sublist.sum_le_sum ?_ ?_
  · exact (hashMapOfList_sublist l).map (fun q => q.2)
  · intro a _
    exact Nat.zero_le a

/-- Every occurrence dropped by deduplication is missing from the total of
the deduplicated values. -/
lemma sum_hashMapOfList_add_le {l : List (Pubkey × Nat)} {q : Pubkey × Nat}
    (hq : q ∈ l) (hnot : q ∉ hashMapOfList l) :
    (mapValues (hashMapOfList l)).sum + q.2 ≤ (mapValues l).sum := by
  induction l with
  | nil => simp at hq
  | cons x xs ih =>
    by_cases h : xs.any (fun y => y.1 == x.1)
    · simp only [hashMapOfList, if_pos h] at hnot ⊢
      rcases List.mem_cons.mp hq with rfl | hq'
      · have hle := sum_hashMapOfList_le xs
        simp only [mapValues, List.map_cons, List.sum_cons] at hle ⊢
        omega
      · have hle := ih hq' hnot
        simp only [mapValues, List.map_cons, List.sum_cons] at hle ⊢
        omega
    · simp only [hashMapOfList, if_neg h, List.mem_cons] at hnot ⊢
      push_neg at hnot
      rcases List.mem_cons.mp hq with rfl | hq'
      · exact absurd rfl hnot.1
      · have hle := ih hq' hnot.2
        simp only [mapValues, List.map_cons, List.sum_cons] at hle ⊢
        omega

/-! ### Helper lemmas about list minima and maxima over `Nat` -/

/-- `List.min?` characterised for `Nat`. -/
lemma natMin?_eq_some_iff {a : Nat} {xs : List Nat} :
    xs.min? = some a ↔ a ∈ xs ∧ ∀ b ∈ xs, a ≤ b :=
  List.min?_eq_some_iff (fun a => Nat.le_refl a)
    (fun a b => by
      rcases Nat.le_total a b with h | h
      · exact Or.inl (min_eq_left h)
      · exact Or.inr (min_eq_right h))
    (fun a b c => Nat.le_min)

/-- `List.max?` characterised for `Nat`. -/
lemma natMax?_eq_some_iff {a : Nat} {xs : List Nat} :
    xs.max? = some a ↔ a ∈ xs ∧ ∀ b ∈ xs, b ≤ a :=
  List.max?_eq_some_iff (fun a => Nat.le_refl a)
    (fun a b => by
      rcases Nat.le_total a b with h | h
      · exact Or.inr (max_eq_right h)
      · exact Or.inl (max_eq_left h))
    (fun a b c => Nat.max_le)

/-- The minimum of a `Nat` list is invariant under permutation. -/
lemma min?_eq_of_perm {l l' : List Nat} (h : l.Perm l') : l.min? = l'.min? := by
  rcases hm : l.min? with _ | a
  · rw [List.min?_eq_none_iff] at hm
    subst hm
    rw [h.symm.eq_nil]
    rfl
  · rw [natMin?_eq_some_iff] at hm
    symm
    rw [natMin?_eq_some_iff]
    exact ⟨h.mem_iff.mp hm.1, fun b hb => hm.2 b (h.mem_iff.mpr hb)⟩

/-- In a list of records that is non-increasing in the stake component, the
last record carries the minimal stake. -/
lemma getLast?_snd_of_sorted {m : List (Pubkey × Nat)}
    (hm : m.Pairwise (fun a b => b.2 ≤ a.2)) :
    m.getLast?.map (fun q => q.2) = (m.map (fun q => q.2)).min? := by
  induction m with
  | nil => rfl
  | cons x xs ih =>
    rw [List.pairwise_cons] at hm
    cases xs with
    | nil => rfl
    | cons y ys =>
      rcases hmin : ((y :: ys).map (fun q => q.2)).min? with _ | a
      · rw [List.min?_eq_none_iff] at hmin
        simp at hmin
      · have ha := natMin?_eq_some_iff.mp hmin
        have hax : a ≤ x.2 := by
          obtain ⟨q, hq, rfl⟩ := List.mem_map.mp ha.1
          exact hm.1 q hq
        have htot : ((x :: y :: ys).map (fun q => q.2)).min? = some a := by
          rw [natMin?_eq_some_iff]
          constructor
          · exact List.mem_cons_of_mem _ ha.1
          · intro b hb
            rcases List.mem_cons.mp hb with rfl | hb'
            · exact hax
            · exact ha.2 b hb'
        rw [htot, List.getLast?_cons_cons, ih hm.2, hmin]

/-- Looking an identity up in the map built from the sorted sequence yields
the minimum of all stakes reported for that identity. -/
lemma mapLookup_hashMap_sorted (l : List (Pubkey × Nat)) (p : Pubkey) :
    mapLookup (hashMapOfList (sortByStakeDesc l)) p =
      ((l.filter (fun q => q.1 == p)).map (fun q => q.2)).min? := by
  rw [mapLookup_hashMapOfList, find?_eq_head?_filter, List.filter_reverse,
    List.head?_reverse]
  have hsorted :
      ((sortByStakeDesc l).filter (fun q => q.1 == p)).Pairwise
        (fun a b => b.2 ≤ a.2) :=
    (sorted_sortByStakeDesc l).filter _
  rw [getLast?_snd_of_sorted hsorted]
  exact min?_eq_of_perm
    ((((perm_sortByStakeDesc l).filter (fun q => q.1 == p)).map (fun q => q.2)))

/-! ### Helper lemmas about parsing and the update pipeline -/

/-- Every parsed record comes from one input record: same stake, identity
obtained by parsing its identity string. -/
lemma parseVoteAccounts_mem {parse : String → Option Pubkey}
    {vas : List RpcVoteAccountInfo} {l : List (Pubkey × Nat)}
    (h : parseVoteAccounts parse vas = some l) {q : Pubkey × Nat} (hq : q ∈ l) :
    ∃ va ∈ vas, parse va.node_pubkey = some q.1 ∧ va.activated_stake = q.2 := by
  induction vas generalizing l with
  | nil =>
    simp only [parseVoteAccounts, Option.some_inj] at h
    subst h
    simp at hq
  | cons va rest ih =>
    rcases hp : parse va.node_pubkey with _ | pk
    · simp [parseVoteAccounts, hp] at h
    · rcases hrest : parseVoteAccounts parse rest with _ | l'
      · simp [parseVoteAccounts, hp, hrest] at h
      · have h' : (pk, va.activated_stake) :: l' = l := by
          simpa [parseVoteAccounts, hp, hrest] using h
        rw [← h'] at hq
        rcases List.mem_cons.mp hq with rfl | hql'
        · exact ⟨va, List.mem_cons_self va rest, by simp [hp]⟩
        · obtain ⟨va', hva', hparse, hstake⟩ := ih hrest hql'
          exact ⟨va', List.mem_cons_of_mem va hva', hparse, hstake⟩

/-- On a fully parseable report `update_stakes` installs the snapshot built
from the parsed records: the stable descending sort, the map collected from
it, and the summary of the map. -/
lemma update_stakes_eq_of_parse {parse : String → Option Pubkey}
    {s : StakesStore} {r : RpcVoteAccountStatus} {parsed : List (Pubkey × Nat)}
    (hp : parseVoteAccounts parse (r.current ++ r.delinquent) = some parsed) :
    s.update_stakes parse r =
      { s with
          data :=
            { identity_to_stake := hashMapOfList (sortByStakeDesc parsed)
              stakes_desc := sortByStakeDesc parsed
              summary := mkSummary (hashMapOfList (sortByStakeDesc parsed)) } } := by
  simp [StakesStore.update_stakes, StakesStore.update_stakesWithLog, hp]

/-- On a report with an unparseable identity, `update_stakesWithLog` keeps
the store untouched and emits exactly one error-level line. -/
lemma update_stakesWithLog_eq_of_parse_fail {parse : String → Option Pubkey}
    {s : StakesStore} {r : RpcVoteAccountStatus}
    (hp : parseVoteAccounts parse (r.current ++ r.delinquent) = none) :
    s.update_stakesWithLog parse r =
      (s, [(LogLevel.error, "rpc vote account result contained bad pubkey")]) := by
  simp [StakesStore.update_stakesWithLog, hp]

/-- The summary computed by `mkSummary` satisfies the summary invariant for
any mapping and ranked sequence. -/
lemma summaryInv_mkSummary (m sd : List (Pubkey × Nat)) :
    SummaryInv ⟨m, sd, mkSummary m⟩ := by
  refine ⟨rfl, ?_, ?_⟩
  · intro v hv
    constructor
    · rcases hmin : (mapValues m).min? with _ | a
      · rw [List.min?_eq_none_iff] at hmin
        rw [hmin] at hv
        simp at hv
      · have := (natMin?_eq_some_iff.mp hmin).2 v hv
        simpa [mkSummary, hmin] using this
    · rcases hmax : (mapValues m).max? with _ | a
      · rw [List.max?_eq_none_iff] at hmax
        rw [hmax] at hv
        simp at hv
      · have := (natMax?_eq_some_iff.mp hmax).2 v hv
        simpa [mkSummary, hmax] using this
  · intro hm
    subst hm
    constructor <;> rfl

/-- One `update_stakes` call preserves the summary invariant: on parse
failure the snapshot is unchanged, otherwise the installed summary is the
one computed from the installed mapping. -/
lemma summaryInv_update_stakes (parse : String → Option Pubkey)
    (s : StakesStore) (r : RpcVoteAccountStatus) (h : SummaryInv s.data) :
    SummaryInv (s.update_stakes parse r).data := by
  rcases hp : parseVoteAccounts parse (r.current ++ r.delinquent) with _ | parsed
  · have : s.update_stakes parse r = s := by
      simp [StakesStore.update_stakes, StakesStore.update_stakesWithLog, hp]
    rw [this]
    exact h
  · rw [update_stakes_eq_of_parse hp]
    exact summaryInv_mkSummary _ _

/-- A report containing an unparseable identity string makes the whole
collection fail. -/
lemma parseVoteAccounts_eq_none_of_mem {parse : String → Option Pubkey}
    {vas : List RpcVoteAccountInfo}
    (h : ∃ va ∈ vas, parse va.node_pubkey = none) :
    parseVoteAccounts parse vas = none := by
  induction vas with
  | nil =>
    obtain ⟨va, hmem, _⟩ := h
    simp at hmem
  | cons va rest ih =>
    obtain ⟨va', hmem, hfail⟩ := h
    rcases List.mem_cons.mp hmem with rfl | hmem'
    · simp [parseVoteAccounts, hfail]
    · rcases hp : parse va.node_pubkey with _ | pk
      · simp [parseVoteAccounts, hp]
      · simp [parseVoteAccounts, hp, ih ⟨va', hmem', hfail⟩]

/-- In a map with pairwise distinct keys, a key occurs once when present
and zero times when absent. -/
lemma countP_key_of_nodup {m : List (Pubkey × Nat)}
    (hm : m.Pairwise (fun a b => a.1 ≠ b.1)) (p : Pubkey) :
    m.countP (fun q => q.1 == p) = if m.any (fun q => q.1 == p) then 1 else 0 := by
  induction m with
  | nil => rfl
  | cons x xs ih =>
    rw [List.pairwise_cons] at hm
    rw [List.countP_cons, ih hm.2, List.any_cons]
    by_cases hxp : (x.1 == p) = true
    · have hxs : xs.any (fun q => q.1 == p) = false := by
        rw [List.any_eq_false]
        intro q hq
        have hne := hm.1 q hq
        simp only [beq_iff_eq] at hxp ⊢
        intro hEq
        exact hne (by rw [hxp, hEq])
      simp [hxp, hxs]
    · have hxp2 : (x.1 == p) = false := Bool.eq_false_iff.mpr hxp
      rw [hxp2, Bool.false_or]
      simp

/-- One update keeps the mapping's keys pairwise distinct. -/
lemma nodupKeys_update_stakes (parse : String → Option Pubkey)
    (s : StakesStore) (r : RpcVoteAccountStatus)
    (h : s.data.identity_to_stake.Pairwise (fun a b => a.1 ≠ b.1)) :
    (s.update_stakes parse r).data.identity_to_stake.Pairwise
      (fun a b => a.1 ≠ b.1) := by
  rcases hp : parseVoteAccounts parse (r.current ++ r.delinquent) with _ | parsed
  · have : s.update_stakes parse r = s := by
      simp [StakesStore.update_stakes, StakesStore.update_stakesWithLog, hp]
    rw [this]
    exact h
  · rw [update_stakes_eq_of_parse hp]
    exact nodupKeys_hashMapOfList _

/-- Every observable store state has a mapping with pairwise distinct
keys. -/
lemma nodupKeys_applyUpdates (parse : String → Option Pubkey) (own : Pubkey)
    (reports : List RpcVoteAccountStatus) :
    ((StakesStore.new own).applyUpdates parse reports).data.identity_to_stake.Pairwise
      (fun a b => a.1 ≠ b.1) := by
  suffices h : ∀ s : StakesStore,
      s.data.identity_to_stake.Pairwise (fun a b => a.1 ≠ b.1) →
      (s.applyUpdates parse reports).data.identity_to_stake.Pairwise
        (fun a b => a.1 ≠ b.1) by
    exact h (StakesStore.new own) (by simp [StakesStore.new, default])
  induction reports with
  | nil => exact fun s hs => hs
  | cons r rest ih =>
    intro s hs
    exact ih _ (nodupKeys_update_stakes parse s r hs)

/-- An update whose report never parses to the identity `p` cannot make a
lookup of `p` succeed. -/
lemma get_node_stake_update_none {parse : String → Option Pubkey}
    {s : StakesStore} {r : RpcVoteAccountStatus} {p : Pubkey}
    (hs : s.get_node_stake p = none)
    (hr : ∀ va ∈ r.current ++ r.delinquent, parse va.node_pubkey ≠ some p) :
    (s.update_stakes parse r).get_node_stake p = none := by
  rcases hp : parseVoteAccounts parse (r.current ++ r.delinquent) with _ | parsed
  · have : s.update_stakes parse r = s := by
      simp [StakesStore.update_stakes, StakesStore.update_stakesWithLog, hp]
    rw [this]
    exact hs
  · rw [update_stakes_eq_of_parse hp]
    apply mapLookup_eq_none_of_not_mem
    intro q hq
    have hq1 : q ∈ sortByStakeDesc parsed := (hashMapOfList_sublist _).mem hq
    have hq2 : q ∈ parsed := (perm_sortByStakeDesc parsed).mem_iff.mp hq1
    obtain ⟨va, hva, hparse, _⟩ := parseVoteAccounts_mem hp hq2
    intro hEq
    rw [hEq] at hparse
    exact hr va hva hparse

/-- A sequence of updates none of which mentions the identity `p` leaves a
lookup of `p` failing. -/
lemma get_node_stake_applyUpdates_none {parse : String → Option Pubkey}
    {s : StakesStore} {p : Pubkey} {reports : List RpcVoteAccountStatus}
    (hs : s.get_node_stake p = none)
    (hr : ∀ r ∈ reports, ∀ va ∈ r.current ++ r.delinquent,
        parse va.node_pubkey ≠ some p) :
    (s.applyUpdates parse reports).get_node_stake p = none := by
  induction reports generalizing s with
  | nil => exact hs
  | cons r rest ih =>
    exact ih (get_node_stake_update_none hs (hr r (List.mem_cons_self r rest)))
      (fun r' hr' => hr r' (List.mem_cons_of_mem r hr'))

/-- The summary invariant holds in every observable store state. -/
lemma summaryInv_applyUpdates (parse : String → Option Pubkey) (own : Pubkey)
    (reports : List RpcVoteAccountStatus) :
    SummaryInv ((StakesStore.new own).applyUpdates parse reports).data := by
  suffices h : ∀ s : StakesStore, SummaryInv s.data →
      SummaryInv (s.applyUpdates parse reports).data by
    refine h (StakesStore.new own) ⟨rfl, ?_, fun _ => ⟨rfl, rfl⟩⟩
    intro v hv
    simp [StakesStore.new, default, mapValues] at hv
  induction reports with
  | nil => exact fun s hs => hs
  | cons r rest ih =>
    intro s hs
    exact ih _ (summaryInv_update_stakes parse s r hs)

/-! ### The claims -/

/-- C1: in every snapshot observable through the read API (the initial
empty snapshot of `new` and the snapshot after every `update_stakes`
call), `summary.total_stakes` equals the sum of the values of
`identity_to_stake`, every value lies between `summary.min_stakes` and
`summary.max_stakes`, and an empty mapping has both bounds `0`. -/
theorem C1_summary_invariant (parse : String → Option Pubkey) (own : Pubkey)
    (reports : List RpcVoteAccountStatus) :
    ((StakesStore.new own).applyUpdates parse reports).get_summary.total_stakes =
      (mapValues
        ((StakesStore.new own).applyUpdates parse reports).get_stake_per_node).sum ∧
    (∀ v ∈ mapValues
        ((StakesStore.new own).applyUpdates parse reports).get_stake_per_node,
      ((StakesStore.new own).applyUpdates parse reports).get_summary.min_stakes ≤ v ∧
      v ≤ ((StakesStore.new own).applyUpdates parse reports).get_summary.max_stakes) ∧
    (((StakesStore.new own).applyUpdates parse reports).get_stake_per_node = [] →
      ((StakesStore.new own).applyUpdates parse reports).get_summary.min_stakes = 0 ∧
      ((StakesStore.new own).applyUpdates parse reports).get_summary.max_stakes = 0) :=
  summaryInv_applyUpdates parse own reports

/-- Witness for C1 at a concrete run: after one update the value 40 lies
between the summary bounds. -/
theorem C1_witness :
    ((StakesStore.new 1).applyUpdates testParse
        [⟨[⟨"A", 100⟩], [⟨"B", 40⟩]⟩]).get_summary.min_stakes ≤ 40 ∧
    40 ≤ ((StakesStore.new 1).applyUpdates testParse
        [⟨[⟨"A", 100⟩], [⟨"B", 40⟩]⟩]).get_summary.max_stakes :=
  (C1_summary_invariant testParse 1 [⟨[⟨"A", 100⟩], [⟨"B", 40⟩]⟩]).2.1 40 (by decide)

/-- C2: on a fully parseable report the installed ranked sequence is
non-increasing in stake, and for every stake value the records carrying it
keep their relative order from the concatenated current-then-delinquent
input (stability). -/
theorem C2_sorted_stable (parse : String → Option Pubkey) (s : StakesStore)
    (r : RpcVoteAccountStatus) (l : List (Pubkey × Nat))
    (hp : parseVoteAccounts parse (r.current ++ r.delinquent) = some l) :
    ((s.update_stakes parse r).get_all_stakes_desc).Pairwise
      (fun a b => b.2 ≤ a.2) ∧
    ∀ v, ((s.update_stakes parse r).get_all_stakes_desc).filter
        (fun q => q.2 == v) = l.filter (fun q => q.2 == v) := by
  rw [update_stakes_eq_of_parse hp]
  exact ⟨sorted_sortByStakeDesc l, fun v => filter_sortByStakeDesc l v⟩

/-- Witness for C2 at a concrete run with an equal-stake tie. -/
theorem C2_witness :
    (((StakesStore.new 0).update_stakes testParse
        ⟨[⟨"A", 5⟩, ⟨"B", 5⟩], []⟩).get_all_stakes_desc).Pairwise
      (fun a b => b.2 ≤ a.2) ∧
    (((StakesStore.new 0).update_stakes testParse
        ⟨[⟨"A", 5⟩, ⟨"B", 5⟩], []⟩).get_all_stakes_desc).filter
        (fun q => q.2 == 5) =
      [((1 : Pubkey), (5 : Nat)), (2, 5)].filter (fun q => q.2 == 5) :=
  ⟨(C2_sorted_stable testParse (StakesStore.new 0) ⟨[⟨"A", 5⟩, ⟨"B", 5⟩], []⟩
      [(1, 5), (2, 5)] (by decide)).1,
    (C2_sorted_stable testParse (StakesStore.new 0) ⟨[⟨"A", 5⟩, ⟨"B", 5⟩], []⟩
      [(1, 5), (2, 5)] (by decide)).2 5⟩

/-- C3 as stated is false on the code: at a concrete report with one
malformed identity string, the diagnostic is emitted at error level
(`log::error!`, line 83), which is not the warning level the claim
names. -/
theorem C3_counterexample :
    ((StakesStore.new 0).update_stakesWithLog testParse ⟨[⟨"bad", 7⟩], []⟩).2 =
      [(LogLevel.error, "rpc vote account result contained bad pubkey")] ∧
    LogLevel.error ≠ LogLevel.warn :=
  ⟨rfl, by decide⟩

/-- C3 (amended): a report containing an identity string that fails to
parse leaves the stored snapshot exactly equal to its pre-call state,
returns normally with no caller-visible error value, and only reports the
failure as a single error-level log diagnostic. -/
theorem C3_parse_failure (parse : String → Option Pubkey) (s : StakesStore)
    (r : RpcVoteAccountStatus)
    (hbad : ∃ va ∈ r.current ++ r.delinquent, parse va.node_pubkey = none) :
    (s.update_stakesWithLog parse r).1 = s ∧
    (s.update_stakesWithLog parse r).2 =
      [(LogLevel.error, "rpc vote account result contained bad pubkey")] := by
  rw [update_stakesWithLog_eq_of_parse_fail (parseVoteAccounts_eq_none_of_mem hbad)]
  exact ⟨rfl, rfl⟩

/-- Witness for C3 (amended) at a concrete malformed report. -/
theorem C3_witness :
    ((StakesStore.new 0).update_stakesWithLog testParse ⟨[⟨"bad", 7⟩], []⟩).1 =
      StakesStore.new 0 :=
  (C3_parse_failure testParse (StakesStore.new 0) ⟨[⟨"bad", 7⟩], []⟩
      ⟨⟨"bad", 7⟩, by decide, by decide⟩).1

/-- C4: a fully parseable report in which some identity occurs more than
once is not rejected: the snapshot is installed, the mapping holds exactly
one entry for that identity — the occurrence processed last while building
the mapping from the sorted sequence — the ranked sequence keeps one record
per occurrence, and the summary is the one computed from the deduplicated
mapping. -/
theorem C4_duplicates (parse : String → Option Pubkey) (s : StakesStore)
    (r : RpcVoteAccountStatus) (l : List (Pubkey × Nat)) (p : Pubkey)
    (hp : parseVoteAccounts parse (r.current ++ r.delinquent) = some l)
    (hdup : 2 ≤ l.countP (fun q => q.1 == p)) :
    (s.update_stakes parse r).get_all_stakes_desc = sortByStakeDesc l ∧
    ((s.update_stakes parse r).get_stake_per_node).countP
      (fun q => q.1 == p) = 1 ∧
    mapLookup ((s.update_stakes parse r).get_stake_per_node) p =
      ((sortByStakeDesc l).reverse.find? (fun q => q.1 == p)).map
        (fun q => q.2) ∧
    ((s.update_stakes parse r).get_all_stakes_desc).countP
      (fun q => q.1 == p) = l.countP (fun q => q.1 == p) ∧
    (s.update_stakes parse r).get_summary =
      mkSummary ((s.update_stakes parse r).get_stake_per_node) := by
  rw [update_stakes_eq_of_parse hp]
  simp only [StakesStore.get_all_stakes_desc, StakesStore.get_stake_per_node,
    StakesStore.get_summary]
  refine ⟨trivial, ?_, mapLookup_hashMapOfList _ p,
    List.Perm.countP_eq _ (perm_sortByStakeDesc l), trivial⟩
  have hpos : 0 < l.countP (fun q => q.1 == p) :=
    Nat.lt_of_lt_of_le (by norm_num) hdup
  obtain ⟨q, hql, hqp⟩ := List.countP_pos_iff.mp hpos
  have hqs : q ∈ sortByStakeDesc l := (perm_sortByStakeDesc l).mem_iff.mpr hql
  have hqr : q ∈ (sortByStakeDesc l).reverse := by simpa using hqs
  rcases hfind2 : (sortByStakeDesc l).reverse.find? (fun q => q.1 == p) with _ | q'
  · exact absurd hqp (by simpa using List.find?_eq_none.mp hfind2 q hqr)
  · have hlook : mapLookup (hashMapOfList (sortByStakeDesc l)) p = some q'.2 := by
      rw [mapLookup_hashMapOfList, hfind2]
      rfl
    have hmem : (p, q'.2) ∈ hashMapOfList (sortByStakeDesc l) :=
      (mapLookup_eq_some_iff_mem (nodupKeys_hashMapOfList _)).mp hlook
    rw [countP_key_of_nodup (nodupKeys_hashMapOfList _) p]
    have hany : (hashMapOfList (sortByStakeDesc l)).any (fun q => q.1 == p) = true :=
      List.any_eq_true.mpr ⟨(p, q'.2), hmem, by simp⟩
    rw [hany]
    rfl

/-- Witness for C4: a report in which identity 1 appears twice. -/
theorem C4_witness :
    (((StakesStore.new 0).update_stakes testParse
        ⟨[⟨"A", 5⟩, ⟨"A", 3⟩], []⟩).get_stake_per_node).countP
      (fun q => q.1 == 1) = 1 :=
  (C4_duplicates testParse (StakesStore.new 0) ⟨[⟨"A", 5⟩, ⟨"A", 3⟩], []⟩
      [(1, 5), (1, 3)] 1 (by decide) (by decide)).2.1

/-- C5: the own-stake read returns the staked record built from the stake
and the current summary when the owner identity is a key of the mapping,
and the zero-valued default record with the unstaked classification when
it is absent — regardless of what the current summary contains. -/
theorem C5_get_identity_stakes (s : StakesStore) :
    (∀ v, mapLookup s.data.identity_to_stake s.own_identity = some v →
        s.get_identity_stakes =
          { peer_type := ConnectionPeerType.Staked
            stakes := v
            total_stakes := s.data.summary.total_stakes
            min_stakes := s.data.summary.min_stakes
            max_stakes := s.data.summary.max_stakes }) ∧
    (mapLookup s.data.identity_to_stake s.own_identity = none →
        s.get_identity_stakes =
          { peer_type := ConnectionPeerType.Unstaked
            stakes := 0
            total_stakes := 0
            min_stakes := 0
            max_stakes := 0 }) := by
  constructor
  · intro v hv
    simp [StakesStore.get_identity_stakes, hv]
  · intro hv
    simp [StakesStore.get_identity_stakes, hv]
    rfl

/-- Witness for C5: a store whose owner is present with stake 42 and whose
summary is not zero. -/
theorem C5_witness :
    (⟨1, ⟨[(1, 42)], [(1, 42)], ⟨42, 42, 42⟩⟩⟩ : StakesStore).get_identity_stakes =
      { peer_type := ConnectionPeerType.Staked
        stakes := 42
        total_stakes := 42
        min_stakes := 42
        max_stakes := 42 } :=
  (C5_get_identity_stakes ⟨1, ⟨[(1, 42)], [(1, 42)], ⟨42, 42, 42⟩⟩⟩).1 42 (by decide)

/-- C6: on the concrete report current = [(A,100),(B,300)],
delinquent = [(C,300)] with three distinct parseable identities, the
ranked view is [(B,300),(C,300),(A,100)] and the summary is
total 700, min 100, max 300. -/
theorem C6_example (parse : String → Option Pubkey) (own : Pubkey)
    (sA sB sC : String) (a b c : Pubkey)
    (hA : parse sA = some a) (hB : parse sB = some b) (hC : parse sC = some c)
    (hab : a ≠ b) (hac : a ≠ c) (hbc : b ≠ c) :
    ((StakesStore.new own).update_stakes parse
        ⟨[⟨sA, 100⟩, ⟨sB, 300⟩], [⟨sC, 300⟩]⟩).get_all_stakes_desc =
      [(b, 300), (c, 300), (a, 100)] ∧
    ((StakesStore.new own).update_stakes parse
        ⟨[⟨sA, 100⟩, ⟨sB, 300⟩], [⟨sC, 300⟩]⟩).get_summary =
      ⟨700, 100, 300⟩ := by
  have hp : parseVoteAccounts parse
      ((⟨[⟨sA, 100⟩, ⟨sB, 300⟩], [⟨sC, 300⟩]⟩ : RpcVoteAccountStatus).current ++
        (⟨[⟨sA, 100⟩, ⟨sB, 300⟩], [⟨sC, 300⟩]⟩ : RpcVoteAccountStatus).delinquent) =
      some [(a, 100), (b, 300), (c, 300)] := by
    simp [parseVoteAccounts, hA, hB, hC]
  have hsort : sortByStakeDesc [(a, 100), (b, 300), (c, 300)] =
      [(b, 300), (c, 300), (a, 100)] := rfl
  have hcb : (c == b) = false := by
    rw [beq_eq_false_iff_ne]
    exact fun h => hbc h.symm
  have hab' : (a == b) = false := by
    rw [beq_eq_false_iff_ne]
    exact hab
  have hac' : (a == c) = false := by
    rw [beq_eq_false_iff_ne]
    exact hac
  have hmap : hashMapOfList [(b, 300), (c, 300), (a, 100)] =
      [(b, 300), (c, 300), (a, 100)] := by
    simp [hashMapOfList, hcb, hab', hac']
  rw [update_stakes_eq_of_parse hp]
  simp only [StakesStore.get_all_stakes_desc, StakesStore.get_summary]
  rw [hsort, hmap]
  exact ⟨rfl, rfl⟩

/-- Witness for C6 with the concrete parse function and A, B, C mapped to
the identities 1, 2, 3. -/
theorem C6_witness :
    ((StakesStore.new 0).update_stakes testParse
        ⟨[⟨"A", 100⟩, ⟨"B", 300⟩], [⟨"C", 300⟩]⟩).get_all_stakes_desc =
      [((2 : Pubkey), (300 : Nat)), (3, 300), (1, 100)] ∧
    ((StakesStore.new 0).update_stakes testParse
        ⟨[⟨"A", 100⟩, ⟨"B", 300⟩], [⟨"C", 300⟩]⟩).get_summary =
      ⟨700, 100, 300⟩ :=
  C6_example testParse 0 "A" "B" "C" 1 2 3 (by decide) (by decide) (by decide)
    (by decide) (by decide) (by decide)

/-- C7: an update with an empty report succeeds and installs the empty
snapshot: all-zero summary, empty mapping, empty ranked sequence. -/
theorem C7_empty_report (parse : String → Option Pubkey) (s : StakesStore) :
    (s.update_stakes parse ⟨[], []⟩).get_summary = ⟨0, 0, 0⟩ ∧
    (s.update_stakes parse ⟨[], []⟩).get_stake_per_node = [] ∧
    (s.update_stakes parse ⟨[], []⟩).get_all_stakes_desc = [] :=
  ⟨rfl, rfl, rfl⟩

/-- C8: in every observable snapshot, `get_node_stake identity` returns
`some stake` exactly when the identity is a key of the current mapping
with that value, and returns `none` for an identity that no update ever
mentioned. -/
theorem C8_get_node_stake (parse : String → Option Pubkey) (own p : Pubkey)
    (reports : List RpcVoteAccountStatus) :
    (∀ v, ((StakesStore.new own).applyUpdates parse reports).get_node_stake p =
        some v ↔
        (p, v) ∈ ((StakesStore.new own).applyUpdates parse
          reports).get_stake_per_node) ∧
    ((∀ r ∈ reports, ∀ va ∈ r.current ++ r.delinquent,
        parse va.node_pubkey ≠ some p) →
      ((StakesStore.new own).applyUpdates parse reports).get_node_stake p =
        none) := by
  constructor
  · intro v
    exact mapLookup_eq_some_iff_mem (nodupKeys_applyUpdates parse own reports)
  · intro hr
    exact get_node_stake_applyUpdates_none rfl hr

/-- Witness for C8: identity 9 never appears, so its lookup fails after a
run with one report. -/
theorem C8_witness :
    ((StakesStore.new 0).applyUpdates testParse
        [⟨[⟨"A", 5⟩], []⟩]).get_node_stake 9 = none :=
  (C8_get_node_stake testParse 0 9 [⟨[⟨"A", 5⟩], []⟩]).2 (by decide)

/-- C10: when a fully parseable report carries one identity with two
distinct stake amounts, the mapping — built by iterating the sorted
sequence — keeps the smallest of that identity's reported stakes, and the
summary total is strictly less than the sum of the stakes in the ranked
sequence. -/
theorem C10_smallest_wins (parse : String → Option Pubkey) (s : StakesStore)
    (r : RpcVoteAccountStatus) (l : List (Pubkey × Nat)) (p : Pubkey)
    (v w : Nat)
    (hp : parseVoteAccounts parse (r.current ++ r.delinquent) = some l)
    (h1 : (p, v) ∈ l) (h2 : (p, w) ∈ l) (hvw : v ≠ w) :
    mapLookup ((s.update_stakes parse r).get_stake_per_node) p =
      ((l.filter (fun q => q.1 == p)).map (fun q => q.2)).min? ∧
    (s.update_stakes parse r).get_summary.total_stakes <
      (mapValues ((s.update_stakes parse r).get_all_stakes_desc)).sum := by
  rw [update_stakes_eq_of_parse hp]
  simp only [StakesStore.get_stake_per_node, StakesStore.get_summary,
    StakesStore.get_all_stakes_desc]
  refine ⟨mapLookup_hashMap_sorted l p, ?_⟩
  have hv_mem : v ∈ (l.filter (fun q => q.1 == p)).map (fun q => q.2) :=
    List.mem_map.mpr ⟨(p, v), List.mem_filter.mpr ⟨h1, by simp⟩, rfl⟩
  rcases hmin : ((l.filter (fun q => q.1 == p)).map (fun q => q.2)).min? with _ | m0
  · rw [List.min?_eq_none_iff] at hmin
    rw [hmin] at hv_mem
    simp at hv_mem
  · have ha := natMin?_eq_some_iff.mp hmin
    obtain ⟨d, hd_mem, hd_ne⟩ : ∃ d, (p, d) ∈ l ∧ d ≠ m0 := by
      by_cases hvm : v = m0
      · exact ⟨w, h2, fun hw => hvw (by rw [hvm, hw])⟩
      · exact ⟨v, h1, hvm⟩
    have hd_val : d ∈ (l.filter (fun q => q.1 == p)).map (fun q => q.2) :=
      List.mem_map.mpr ⟨(p, d), List.mem_filter.mpr ⟨hd_mem, by simp⟩, rfl⟩
    have hd_lb : m0 ≤ d := ha.2 d hd_val
    have hd_pos : 0 < d :=
      Nat.lt_of_le_of_lt (Nat.zero_le m0) (Nat.lt_of_le_of_ne hd_lb hd_ne.symm)
    have hd_notin : (p, d) ∉ hashMapOfList (sortByStakeDesc l) := by
      intro hin
      have hlook :=
        (mapLookup_eq_some_iff_mem (nodupKeys_hashMapOfList _)).mpr hin
      rw [mapLookup_hashMap_sorted, hmin] at hlook
      exact hd_ne (Option.some.inj hlook).symm
    have hd_sort : (p, d) ∈ sortByStakeDesc l :=
      (perm_sortByStakeDesc l).mem_iff.mpr hd_mem
    have hsum := sum_hashMapOfList_add_le hd_sort hd_notin
    show (mapValues (hashMapOfList (sortByStakeDesc l))).sum <
      (mapValues (sortByStakeDesc l)).sum
    omega

/-- Witness for C10: identity 1 reported with stakes 5 and 3; the mapping
keeps 3 and the total 3 is strictly below the ranked-sequence sum 8. -/
theorem C10_witness :
    mapLookup (((StakesStore.new 0).update_stakes testParse
        ⟨[⟨"A", 5⟩, ⟨"A", 3⟩], []⟩).get_stake_per_node) 1 =
      (([((1 : Pubkey), (5 : Nat)), (1, 3)].filter
          (fun q => q.1 == 1)).map (fun q => q.2)).min? ∧
    ((StakesStore.new 0).update_stakes testParse
        ⟨[⟨"A", 5⟩, ⟨"A", 3⟩], []⟩).get_summary.total_stakes <
      (mapValues (((StakesStore.new 0).update_stakes testParse
        ⟨[⟨"A", 5⟩, ⟨"A", 3⟩], []⟩).get_all_stakes_desc)).sum :=
  C10_smallest_wins testParse (StakesStore.new 0) ⟨[⟨"A", 5⟩, ⟨"A", 3⟩], []⟩
    [(1, 5), (1, 3)] 1 5 3 (by decide) (by decide) (by decide) (by decide)
